import Mathlib

/-!
# Verification of the Synapse Hybrid Retrieval Engine

A shallow embedding of `chat_core/kb/retriever.py` (class `Retriever`): the
hybrid candidate generator, min-max score fusion, optional title boost,
optional cross-encoder rerank, MMR diversity selection, and the public
`search` entry point.

Modelling conventions:
* Python floats are modelled as exact rationals (`ℚ`); the literal float
  constants `1e-12` and `-1e9` of the source are modelled as `1/10^12` and
  `-(10^9)`.
* External capabilities (the sentence-transformer `model.encode` together
  with the L2-normalization applied right after it, the FAISS inner-product
  `index.search`, the `BM25Okapi.get_scores` scorer, and the cross-encoder
  `predict`) are fields of the `Retriever` structure, exactly as the source
  holds them as attributes loaded in `__init__`.  `encode` returns the
  already-normalized query/passage vector (the source normalizes every
  encoded vector the same way, `v / (norm v + 1e-12)`).
* The capability `index.search` returns `(id, score)` pairs; the source's
  filtering of the FAISS `-1` paddings and the zip with the score row happen
  at this capability boundary (ids are `ℕ` here).
* Tie order of `np.argsort`/`np.argpartition` is unspecified in numpy; they
  are modelled by a stable sort on indices (`argsortDesc`).  Python's stable
  `list.sort(key=..., reverse=True)` is modelled by insertion sort with the
  strict descending relation, which places later ties after earlier ones,
  exactly as the stable source sort does.
-/

/-- Dense vectors are lists of rationals. -/
abbrev Vec : Type := List ℚ

/-- Inner product of two vectors (the source only ever multiplies
equal-length rows; extra coordinates of a longer vector are ignored). -/
def dot (u v : Vec) : ℚ := (List.zipWith (· * ·) u v).sum

/-- Minimum of a list, modelling `np.min` on a non-empty array
(`0` on the empty list, which the source never hits). -/
def listMinD : List ℚ → ℚ
  | [] => 0
  | x :: xs => xs.foldl min x

/-- Maximum of a list, modelling `np.max` on a non-empty array
(`0` on the empty list, which the source never hits). -/
def listMaxD : List ℚ → ℚ
  | [] => 0
  | x :: xs => xs.foldl max x

/-- The float constant `1e-12` of `Retriever._minmax`. -/
def minmaxEps : ℚ := 1 / 10 ^ 12

/-- Embeds `Retriever._minmax`: min-max normalization with the
degenerate-range guard.  Mirrors

```python
if arr.size == 0: return arr
mn = np.min(arr); mx = np.max(arr)
if mx - mn < 1e-12: return np.zeros_like(arr)
return (arr - mn) / (mx - mn + 1e-12)
``` -/
def minmaxList (arr : List ℚ) : List ℚ :=
  if arr = [] then arr
  else
    let mn := listMinD arr
    let mx := listMaxD arr
    if mx - mn < minmaxEps then arr.map (fun _ => 0)
    else arr.map (fun x => (x - mn) / (mx - mn + minmaxEps))

/-- Helper for `wsSplit`: accumulates the current token (reversed) while
scanning the character list; whitespace closes the current token.  This is
Python `str.split()` (split on whitespace runs, no empty tokens). -/
def wsSplitAux : List Char → List Char → List String
  | [], acc => if acc = [] then [] else [String.mk acc.reverse]
  | c :: cs, acc =>
      if c.isWhitespace then
        if acc = [] then wsSplitAux cs [] else String.mk acc.reverse :: wsSplitAux cs []
      else wsSplitAux cs (c :: acc)

/-- Python `str.split()` on a character list. -/
def wsSplit (cs : List Char) : List String := wsSplitAux cs []

/-- The tokenization `query.lower().split()` that the source feeds to BM25,
both for the corpus texts (in `Retriever.__init__`) and for the query
(in `Retriever._hybrid_rank`). -/
def tokenizeLowerSplit (s : String) : List String := wsSplit s.toLower.data

/-- Helper for `alnumTokens`: accumulates maximal alphanumeric runs. -/
def alnumSplitAux : List Char → List Char → List String
  | [], acc => if acc = [] then [] else [String.mk acc.reverse]
  | c :: cs, acc =>
      if c.isAlphanum then alnumSplitAux cs (c :: acc)
      else if acc = [] then alnumSplitAux cs [] else String.mk acc.reverse :: alnumSplitAux cs []

/-- Modelled from the spec: the spec's sparse-path tokenizer, "tokenize the
query by lower-casing and extracting alphanumeric tokens".  No such
tokenizer exists in `retriever.py` (the source uses `lower().split()`);
this definition follows the spec's words and is used only to compare the
two tokenizations. -/
def alnumTokens (s : String) : List String := alnumSplitAux s.toLower.data []

/-- Python `str.strip()`: drop whitespace from both ends. -/
def pyStrip (s : String) : String :=
  String.mk (((s.data.dropWhile Char.isWhitespace).reverse.dropWhile Char.isWhitespace).reverse)

/-- Stable descending argsort of a score list: models `np.argsort(-scores)`
(numpy's tie order is unspecified; this model fixes it to index order). -/
def argsortDesc (xs : List ℚ) : List ℕ :=
  List.insertionSort (fun i j => xs.getD j 0 < xs.getD i 0) (List.range xs.length)

/-- One row of the result of `Retriever._hybrid_rank`:
`(chunk_idx, vec_norm, bm25_norm, fused_hybrid, title_sim_norm, total_score)`. -/
structure HTuple where
  idx : ℕ
  vNorm : ℚ
  bNorm : ℚ
  fused : ℚ
  tBoost : ℚ
  total : ℚ
deriving DecidableEq

/-- Python `zip` of the six per-candidate columns (truncates at the
shortest column, exactly like `zip`). -/
def zip6 : List ℕ → List ℚ → List ℚ → List ℚ → List ℚ → List ℚ → List HTuple
  | a :: as, b :: bs, c :: cs, d :: ds, e :: es, f :: fs =>
      ⟨a, b, c, d, e, f⟩ :: zip6 as bs cs ds es fs
  | _, _, _, _, _, _ => []

/-- One chunk record of `meta.json` (the fields the retriever reads). -/
structure Chunk where
  text : String
  title : String
deriving DecidableEq

/-- One `search()` result: the chunk's metadata plus the five diagnostic
scores the source attaches (`score_vec_norm`, `score_bm25_norm`,
`score_hybrid`, `score_title`, `score_total`). -/
structure SearchResult where
  chunk : Chunk
  scoreVecNorm : ℚ
  scoreBm25Norm : ℚ
  scoreHybrid : ℚ
  scoreTitle : ℚ
  scoreTotal : ℚ
deriving DecidableEq

/-- The typed construction error: the source raises `FileNotFoundError`
("Missing KB files") when the index or the metadata file is absent; the
spec's error taxonomy names this condition `MissingIndexError`. -/
inductive RetrieverError where
  | missingIndex (msg : String)
deriving DecidableEq

/-- The state a constructed `Retriever` holds (configuration knobs, corpus
data, and the external capabilities loaded in `__init__`). -/
structure Retriever where
  /-- Chunk metadata, `self.meta`. -/
  meta : List Chunk
  /-- Capability `self.model.encode` composed with the source's
  query/passage normalization (`v / (np.linalg.norm v + 1e-12)`): returns
  the normalized embedding of a text. -/
  encode : String → Vec
  /-- Capability `self.index.search`: FAISS inner-product top-k as
  `(id, score)` pairs (the `-1` paddings already filtered, scores
  row-aligned). -/
  indexSearch : Vec → ℕ → List (ℕ × ℚ)
  /-- Capability `self._bm25.get_scores` if BM25 was built, else `None`. -/
  bm25 : Option (List String → List ℚ)
  /-- Capability `self._reranker.predict` if a cross-encoder was loaded,
  else `None`; `Except` models prediction-time exceptions. -/
  reranker : Option (List (String × String) → Except Unit (List ℚ))
  /-- Knob `self.top_k`. -/
  top_k : ℤ
  /-- Knob `self.alpha_hybrid`. -/
  alpha_hybrid : ℚ
  /-- Knob `self.vec_k`. -/
  vec_k : ℕ
  /-- Knob `self.bm25_k`. -/
  bm25_k : ℕ
  /-- Knob `self.mmr_lambda`. -/
  mmr_lambda : ℚ
  /-- Knob `self.mmr_pool`. -/
  mmr_pool : ℕ
  /-- Knob `self.rerank_from`. -/
  rerank_from : ℕ
  /-- Knob `self.title_boost`. -/
  title_boost : ℚ
  /-- Knob `self.title_k`. -/
  title_k : ℕ
  /-- Flag `self.use_titles` (after the `__init__` shape checks). -/
  use_titles : Bool
  /-- Loaded `self._titles_vecs` (`None` or the title-vector rows). -/
  titles_vecs : Option (List Vec)
  /-- Loaded `self._titles_list` (distinct titles in first-seen order). -/
  titles_list : List String

namespace Retriever

/-- Chunk texts, `self._texts`. -/
def texts (r : Retriever) : List String := r.meta.map (·.text)

/-- Dense hits of `_hybrid_rank`:
`self.index.search(q, min(vec_k, len(meta)))` as the `(id, score)` pairs of
`vec_map`. -/
def denseHits (r : Retriever) (q : String) : List (ℕ × ℚ) :=
  r.indexSearch (r.encode q) (min r.vec_k r.meta.length)

/-- Raw BM25 score row `bm = self._bm25.get_scores(query.lower().split())`
(empty when no BM25 scorer was built). -/
def bmScores (r : Retriever) (q : String) : List ℚ :=
  match r.bm25 with
  | none => []
  | some f => f (tokenizeLowerSplit q)

/-- Sparse candidate ids, `top_bm = np.argsort(-bm)[: min(bm25_k, len(bm))]`. -/
def bm25Top (r : Retriever) (q : String) : List ℕ :=
  (argsortDesc (r.bmScores q)).take (min r.bm25_k (r.bmScores q).length)

/-- Sparse score map, `bm25_map = {i: bm[i] for i in top_bm}`. -/
def bm25Pairs (r : Retriever) (q : String) : List (ℕ × ℚ) :=
  (r.bm25Top q).map (fun i => (i, (r.bmScores q).getD i 0))

end Retriever

/-- Python `dict.get(i, 0.0)` on an association list. -/
def lookupD (ps : List (ℕ × ℚ)) (i : ℕ) : ℚ := (ps.lookup i).getD 0

namespace Retriever

/-- Candidate union,
`cand_list = sorted(set(vec_map.keys()).union(bm25_ids))`. -/
def candUnion (r : Retriever) (q : String) : List ℕ :=
  List.insertionSort (fun a b => a ≤ b) (((r.denseHits q).map Prod.fst ++ r.bm25Top q).dedup)

/-- Dense raw scores over the union,
`v_arr = [vec_map.get(i, 0.0) for i in cand_list]`. -/
def vArr (r : Retriever) (q : String) : List ℚ :=
  (r.candUnion q).map (fun i => lookupD (r.denseHits q) i)

/-- Sparse raw scores over the union,
`b_arr = [bm25_map.get(i, 0.0) for i in cand_list]`. -/
def bArr (r : Retriever) (q : String) : List ℚ :=
  (r.candUnion q).map (fun i => lookupD (r.bm25Pairs q) i)

/-- Normalized dense scores, `v_norm = self._minmax(v_arr)`. -/
def vNorm (r : Retriever) (q : String) : List ℚ := minmaxList (r.vArr q)

/-- Normalized sparse scores, `b_norm = self._minmax(b_arr)`. -/
def bNorm (r : Retriever) (q : String) : List ℚ := minmaxList (r.bArr q)

/-- Fused scores, `fused = alpha * v_norm + (1 - alpha) * b_norm`
(elementwise). -/
def fusedArr (r : Retriever) (q : String) : List ℚ :=
  List.zipWith (fun v b => r.alpha_hybrid * v + (1 - r.alpha_hybrid) * b)
    (r.vNorm q) (r.bNorm q)

/-- Embeds `Retriever._title_sim`: the title-to-normalized-similarity map
(the `np.argpartition` top-K is modelled by the stable descending argsort). -/
def titleSim (r : Retriever) (q : String) : List (String × ℚ) :=
  if r.use_titles = false ∨ r.titles_vecs = none ∨ r.titles_list = [] then []
  else
    let vs := (r.titles_vecs).getD []
    let sims := vs.map (fun v => dot v (r.encode q))
    if 0 < r.title_k ∧ r.title_k < sims.length then
      let topIdx := (argsortDesc sims).take r.title_k
      let simsNorm := minmaxList (topIdx.map (fun i => sims.getD i 0))
      List.zip (topIdx.map (fun i => r.titles_list.getD i "")) simsNorm
    else
      List.zip r.titles_list (minmaxList sims)

/-- The `title_boosts` array of `_hybrid_rank`: zeros unless title boosting
is active, in which case each candidate whose (stripped) title is in the
`_title_sim` map gets `tmap[t] * self.title_boost`. -/
def titleBoosts (r : Retriever) (q : String) : List ℚ :=
  if r.use_titles = true ∧ r.titles_vecs ≠ none then
    let tmap := r.titleSim q
    if tmap ≠ [] then
      (r.candUnion q).map (fun ci =>
        let t := pyStrip (r.meta.getD ci ⟨"", ""⟩).title
        if t ≠ "" then
          match tmap.lookup t with
          | some v => v * r.title_boost
          | none => 0
        else 0)
    else (r.fusedArr q).map (fun _ => 0)
  else (r.fusedArr q).map (fun _ => 0)

/-- Total scores, `total = fused + title_boosts` (elementwise). -/
def totalArr (r : Retriever) (q : String) : List ℚ :=
  List.zipWith (· + ·) (r.fusedArr q) (r.titleBoosts q)

/-- The zipped per-candidate rows of `_hybrid_rank`, before sorting. -/
def rankedPre (r : Retriever) (q : String) : List HTuple :=
  zip6 (r.candUnion q) (r.vNorm q) (r.bNorm q) (r.fusedArr q) (r.titleBoosts q)
    (r.totalArr q)

/-- Embeds `Retriever._hybrid_rank`: empty on an empty corpus or empty
candidate union, otherwise the rows sorted by `total_score` descending
(`ranked.sort(key=lambda t: t[5], reverse=True)`, a stable sort). -/
def hybridRank (r : Retriever) (q : String) : List HTuple :=
  if r.meta = [] then []
  else if r.candUnion q = [] then []
  else List.insertionSort (fun a b => b.total < a.total) (r.rankedPre q)

/-- Embeds `Retriever._rerank`: pass-through truncation unless a reranker
is present and predicts successfully, in which case candidates are
reordered by descending predicted score. -/
def rerank (r : Retriever) (q : String) (cands : List ℕ) (limit : ℕ) : List ℕ :=
  match r.reranker with
  | none => cands.take limit
  | some f =>
      if cands = [] then cands.take limit
      else
        match f (cands.map (fun i => (q, r.texts.getD i ""))) with
        | .error _ => cands.take limit
        | .ok scores => ((argsortDesc scores).take limit).map (fun i => cands.getD i 0)

end Retriever

/-- The float constant `-1e9` initializing `best_score` in `_mmr`. -/
def mmrNegInf : ℚ := -(10 ^ 9)

/-- One MMR score:
`mmr = lambda_mult * sim_q[i] - (1.0 - lambda_mult) * div_pen`, where
`div_pen` is `0.0` when nothing is selected and otherwise
`max(sim_dd[i, sel_idx])` over the selected positions. -/
def mmrScoreF (simQ : ℕ → ℚ) (simDD : ℕ → ℕ → ℚ) (lam : ℚ) (sel : List ℕ) (i : ℕ) : ℚ :=
  lam * simQ i - (1 - lam) * (if sel = [] then 0 else listMaxD (sel.map (fun j => simDD i j)))

/-- One step of the inner argmax scan of `_mmr`: skip a selected position,
otherwise update `(best_i, best_score)` on a strictly larger score. -/
def pickStep (sel : List ℕ) (score : ℕ → ℚ) (best : Option ℕ × ℚ) (i : ℕ) : Option ℕ × ℚ :=
  if i ∈ sel then best
  else if best.2 < score i then (some i, score i) else best

/-- The inner argmax loop of `_mmr`: scan positions `0..n-1` starting from
`(best_i, best_score) = (-1, -1e9)`; `none` models `best_i == -1`. -/
def mmrPick (n : ℕ) (sel : List ℕ) (score : ℕ → ℚ) : Option ℕ :=
  ((List.range n).foldl (pickStep sel score) ((none : Option ℕ), mmrNegInf)).1

/-- The invariant of the argmax scan: after processing some positions, the
state is either still the initial one (and no processed unselected position
beat `-1e9`), or it holds a processed unselected position whose score is
maximal among the processed unselected ones. -/
def PickInv (sel : List ℕ) (score : ℕ → ℚ) (processed : List ℕ) (st : Option ℕ × ℚ) : Prop :=
  (st.1 = none ∧ st.2 = mmrNegInf ∧ ∀ i ∈ processed, i ∉ sel → score i ≤ mmrNegInf) ∨
  (∃ b, st.1 = some b ∧ st.2 = score b ∧ b ∈ processed ∧ b ∉ sel ∧
    ∀ i ∈ processed, i ∉ sel → score i ≤ score b)

/-- The outer loop of `_mmr`: `k` rounds, each appending the best
unselected position; `break` when no candidate was picked. -/
def mmrLoop (n : ℕ) (scoreF : List ℕ → ℕ → ℚ) : ℕ → List ℕ → List ℕ
  | 0, sel => sel
  | k + 1, sel =>
      match mmrPick n sel (scoreF sel) with
      | none => sel
      | some b => mmrLoop n scoreF k (sel ++ [b])

namespace Retriever

/-- Candidate embeddings of `_mmr`,
`cand_vecs = self.model.encode([self._texts[i] for i in candidate_ids])`
(normalized, via the `encode` capability). -/
def candVecs (r : Retriever) (ids : List ℕ) : List Vec :=
  ids.map (fun i => r.encode (r.texts.getD i ""))

/-- Query-candidate similarities of `_mmr`, `sim_q = cand_vecs @ qv`. -/
def simQ (r : Retriever) (qv : Vec) (ids : List ℕ) (i : ℕ) : ℚ :=
  dot ((r.candVecs ids).getD i []) qv

/-- Candidate-candidate similarities of `_mmr`,
`sim_dd = cand_vecs @ cand_vecs.T`. -/
def simDD (r : Retriever) (ids : List ℕ) (i j : ℕ) : ℚ :=
  dot ((r.candVecs ids).getD i []) ((r.candVecs ids).getD j [])

/-- The selected positions of `_mmr` (before mapping back to ids):
`k = max(1, min(k, len(candidate_ids)))` rounds of greedy selection. -/
def mmrPositions (r : Retriever) (qv : Vec) (ids : List ℕ) (k : ℤ) (lam : ℚ) : List ℕ :=
  mmrLoop ids.length (mmrScoreF (r.simQ qv ids) (r.simDD ids) lam)
    (max 1 (min k (ids.length : ℤ))).toNat []

/-- Embeds `Retriever._mmr`: an empty pool returns `[]`, otherwise the
greedily selected candidate ids in selection order. -/
def mmr (r : Retriever) (qv : Vec) (ids : List ℕ) (k : ℤ) (lam : ℚ) : List ℕ :=
  if ids = [] then []
  else (r.mmrPositions qv ids k lam).map (fun p => ids.getD p 0)

/-- The pre-rerank working pool of `search`:
`pool = [idx for idx, *_ in ranked[: max(self.mmr_pool, self.rerank_from)]]`. -/
def poolPre (r : Retriever) (q : String) : List ℕ :=
  ((r.hybridRank q).take (max r.mmr_pool r.rerank_from)).map (·.idx)

/-- The pool after the optional rerank stage:
`if self._reranker and pool: pool = self._rerank(query, pool, limit=len(pool))`. -/
def poolPost (r : Retriever) (q : String) : List ℕ :=
  if r.reranker.isSome = true ∧ r.poolPre q ≠ [] then
    r.rerank q (r.poolPre q) (r.poolPre q).length
  else r.poolPre q

/-- Diagnostic-score lookup, `hybrid_map.get(idx, (0,0,0,0,0))` (candidate
ids are distinct, so first-match lookup agrees with the Python dict). -/
def lookupScores (ranked : List HTuple) (i : ℕ) : ℚ × ℚ × ℚ × ℚ × ℚ :=
  match ranked.find? (fun t => t.idx = i) with
  | some t => (t.vNorm, t.bNorm, t.fused, t.tBoost, t.total)
  | none => (0, 0, 0, 0, 0)

/-- Embeds `Retriever.search`: hybrid rank, pool truncation, optional
rerank, MMR, then result assembly with diagnostic scores. -/
def search (r : Retriever) (q : String) (topK : Option ℤ) : List SearchResult :=
  let kFinal : ℤ := match topK with | some t => t | none => r.top_k
  let ranked := r.hybridRank q
  if ranked = [] then []
  else
    let pool := r.poolPost q
    let qv := r.encode q
    let finalIds := r.mmr qv pool kFinal r.mmr_lambda
    finalIds.map (fun idx =>
      let s := lookupScores ranked idx
      { chunk := r.meta.getD idx ⟨"", ""⟩
        scoreVecNorm := s.1
        scoreBm25Norm := s.2.1
        scoreHybrid := s.2.2.1
        scoreTitle := s.2.2.2.1
        scoreTotal := s.2.2.2.2 })

/-- The corpus and query embeddings the source works with are
unit-normalized, so any inner product of two encoded vectors is a cosine
similarity in `[-1, 1]` (the source guarantees this by dividing every
encoded vector by its norm). -/
def SimBounded (r : Retriever) : Prop :=
  ∀ s₁ s₂ : String, |dot (r.encode s₁) (r.encode s₂)| ≤ 1

/-- The cross-encoder capability returns one score per `(query, text)`
pair, as `CrossEncoder.predict` does. -/
def GoodReranker (r : Retriever) : Prop :=
  ∀ f ps l, r.reranker = some f → f ps = .ok l → l.length = ps.length

/-- Well-formedness facts the source relies on: unit-normalized embeddings,
an MMR trade-off weight in `[0, 1]`, and a reranker returning one score per
pair. -/
def WellFormed (r : Retriever) : Prop :=
  r.SimBounded ∧ 0 ≤ r.mmr_lambda ∧ r.mmr_lambda ≤ 1 ∧ r.GoodReranker

end Retriever

/-- Distinct (stripped, non-empty) titles of the metadata in first-seen
order: `self._titles_list` as built by `__init__`. -/
def distinctTitles (meta : List Chunk) : List String :=
  meta.foldl
    (fun acc m =>
      let t := pyStrip m.title
      if t = "" ∨ t ∈ acc then acc else acc ++ [t])
    []

/-- The inputs of `Retriever.__init__`: the configuration knobs (after env
overrides), whether the two required KB files exist, the artifacts they
hold, and the optional-dependency capabilities. -/
structure InitArgs where
  top_k : ℤ
  alpha_hybrid : ℚ
  vec_k : ℕ
  bm25_k : ℕ
  mmr_lambda : ℚ
  mmr_pool : ℕ
  rerank_from : ℕ
  title_boost : ℚ
  title_k : ℕ
  /-- Env check `RAG_USE_TITLES not in ("0","false","False")`. -/
  useTitlesEnv : Bool
  /-- File check `INDEX_PATH.is_file()`. -/
  indexPresent : Bool
  /-- File check `META_PATH.is_file()`. -/
  metaPresent : Bool
  encode : String → Vec
  indexSearch : Vec → ℕ → List (ℕ × ℚ)
  meta : List Chunk
  /-- File check `TITLES_NPY.is_file()`. -/
  titlesPresent : Bool
  /-- Artifact `np.load(TITLES_NPY)` (`none` when the load raises). -/
  titlesLoad : Option (List Vec)
  /-- Import check `BM25Okapi is not None`. -/
  bm25Lib : Bool
  /-- Capability `BM25Okapi(corpus_tokens).get_scores`. -/
  bm25Of : List (List String) → (List String → List ℚ)
  /-- Name `self.reranker_model_name` (env `RAG_RERANKER`, stripped, or
  `None`). -/
  rerankerName : Option String
  /-- Import check `CrossEncoder is not None`. -/
  crossEncoderLib : Bool
  /-- Capability `CrossEncoder(name).predict` (`none` when the constructor
  raises). -/
  rerankerOf : String → Option (List (String × String) → Except Unit (List ℚ))

/-- The title-table handling of `__init__`: `(use_titles, titles_vecs)`
after the shape check (`titles.npy` row count versus distinct-title count);
a mismatch or a failed load disables title boosting. -/
def initUseTitles (a : InitArgs) : Bool × Option (List Vec) :=
  if a.useTitlesEnv = true ∧ a.titlesPresent = true then
    match a.titlesLoad with
    | some vs =>
        if vs.length ≠ (distinctTitles a.meta).length then (false, none) else (true, some vs)
    | none => (false, none)
  else (false, none)

/-- The retriever state built by a successful `__init__`. -/
def initRetriever (a : InitArgs) : Retriever :=
  { meta := a.meta
    encode := a.encode
    indexSearch := a.indexSearch
    bm25 :=
      if a.meta.map (·.text) ≠ [] ∧ a.bm25Lib = true then
        some (a.bm25Of ((a.meta.map (·.text)).map tokenizeLowerSplit))
      else none
    reranker :=
      match a.rerankerName with
      | none => none
      | some nm => if a.crossEncoderLib = true then a.rerankerOf nm else none
    top_k := a.top_k
    alpha_hybrid := a.alpha_hybrid
    vec_k := a.vec_k
    bm25_k := a.bm25_k
    mmr_lambda := a.mmr_lambda
    mmr_pool := a.mmr_pool
    rerank_from := a.rerank_from
    title_boost := a.title_boost
    title_k := a.title_k
    use_titles := (initUseTitles a).1
    titles_vecs := (initUseTitles a).2
    titles_list :=
      if a.useTitlesEnv = true ∧ a.titlesPresent = true then distinctTitles a.meta else [] }

/-- Embeds `Retriever.__init__`: raises (here: returns the typed error)
when the index or metadata file is missing, otherwise builds the retriever
state. -/
def retrieverInit (a : InitArgs) : Except RetrieverError Retriever :=
  if a.indexPresent = false ∨ a.metaPresent = false then
    .error (.missingIndex "Missing KB files")
  else .ok (initRetriever a)

/-- Scaling every raw dense score by a constant `c`: the retriever whose
dense capability returns the same hits with scores multiplied by `c`. -/
def scaleDense (r : Retriever) (c : ℚ) : Retriever :=
  { r with indexSearch := fun v k => (r.indexSearch v k).map (fun p => (p.1, c * p.2)) }

/-! ## Concrete instances used by counterexamples and witnesses -/

/-- A tiny two-chunk retriever: constant unit embeddings, dense scores
`[1, 1/2]`, no BM25, no reranker, no titles; knobs at their defaults for
`top_k = 4`. -/
def R0 : Retriever where
  meta := [⟨"x", ""⟩, ⟨"y", ""⟩]
  encode := fun _ => [1]
  indexSearch := fun _ _ => [(0, 1), (1, 1/2)]
  bm25 := none
  reranker := none
  top_k := 4
  alpha_hybrid := 3/5
  vec_k := 50
  bm25_k := 50
  mmr_lambda := 3/5
  mmr_pool := 15
  rerank_from := 20
  title_boost := 1/4
  title_k := 64
  use_titles := false
  titles_vecs := none
  titles_list := []

/-- Like `R0` but with the pool caps (`RAG_MMR_POOL`, `RAG_RERANK_FROM`)
overridden to 1, so the working pool is smaller than the candidate union. -/
def Rcap : Retriever := { R0 with mmr_pool := 1, rerank_from := 1 }

/-- Like `R0` but with dense raw scores `[0, 1]` and a BM25 scorer that
rates chunk 0 over chunk 1: the two axes disagree, making the fused
ranking sensitive to the dense scale. -/
def R4 : Retriever :=
  { R0 with indexSearch := fun _ _ => [(0, 0), (1, 1)], bm25 := some (fun _ => [1, 0]) }

/-- A BM25 capability that recognizes exactly the token list
`["a", "b"]`. -/
def fTok : List String → List ℚ := fun ts => if ts = ["a", "b"] then [1] else [0]

/-- Like `R0` but with the token-sensitive BM25 scorer `fTok`. -/
def Rtok : Retriever := { R0 with bm25 := some fTok }

/-- A cross-encoder `predict` capability that raises on every call. -/
def failPredict : List (String × String) → Except Unit (List ℚ) := fun _ => .error ()

/-- Like `R0` but with the always-raising reranker. -/
def Rfail : Retriever := { R0 with reranker := some failPredict }

/-- A retriever over an empty corpus. -/
def Rempty : Retriever := { R0 with meta := [], indexSearch := fun _ _ => [] }

/-- Construction inputs with both KB files present, a two-chunk corpus
sharing the title "T", and a three-row title table (mismatching the single
distinct title). -/
def A6 : InitArgs where
  top_k := 4
  alpha_hybrid := 3/5
  vec_k := 50
  bm25_k := 50
  mmr_lambda := 3/5
  mmr_pool := 15
  rerank_from := 20
  title_boost := 1/4
  title_k := 64
  useTitlesEnv := true
  indexPresent := true
  metaPresent := true
  encode := fun _ => [1]
  indexSearch := fun _ _ => [(0, 1), (1, 1/2)]
  meta := [⟨"x", "T"⟩, ⟨"y", "T"⟩]
  titlesPresent := true
  titlesLoad := some [[1], [1], [1]]
  bm25Lib := false
  bm25Of := fun _ => fun _ => []
  rerankerName := none
  crossEncoderLib := false
  rerankerOf := fun _ => none

/-- Construction inputs identical to `A6` but with the metadata file
absent. -/
def A7 : InitArgs := { A6 with metaPresent := false }

/-! ## List helper lemmas -/

theorem minmaxList_length (l : List ℚ) : (minmaxList l).length = l.length := by
  unfold minmaxList
  by_cases h : l = []
  · simp [h]
  · simp only [h, if_false]
    split <;> simp

theorem foldl_max_mem (xs : List ℚ) (x : ℚ) : xs.foldl max x ∈ x :: xs := by
  induction xs generalizing x with
  | nil => simp
  | cons y ys ih =>
      rw [List.foldl_cons]
      have h := ih (max x y)
      rcases List.mem_cons.1 h with h | h
      · rw [h]; rcases max_choice x y with hm | hm <;> simp [hm]
      · simp [h]

theorem foldl_min_mem (xs : List ℚ) (x : ℚ) : xs.foldl min x ∈ x :: xs := by
  induction xs generalizing x with
  | nil => simp
  | cons y ys ih =>
      rw [List.foldl_cons]
      have h := ih (min x y)
      rcases List.mem_cons.1 h with h | h
      · rw [h]; rcases min_choice x y with hm | hm <;> simp [hm]
      · simp [h]

theorem listMaxD_mem (l : List ℚ) (h : l ≠ []) : listMaxD l ∈ l := by
  cases l with
  | nil => exact absurd rfl h
  | cons x xs => exact foldl_max_mem xs x

theorem listMinD_mem (l : List ℚ) (h : l ≠ []) : listMinD l ∈ l := by
  cases l with
  | nil => exact absurd rfl h
  | cons x xs => exact foldl_min_mem xs x

theorem minmaxList_const (l : List ℚ) (h : ∀ x ∈ l, ∀ y ∈ l, x = y) :
    minmaxList l = l.map (fun _ => 0) := by
  by_cases hl : l = []
  · simp [hl, minmaxList]
  · have hmx := listMaxD_mem l hl
    have hmn := listMinD_mem l hl
    have heq : listMaxD l = listMinD l := h _ hmx _ hmn
    have hcond : listMaxD l - listMinD l < minmaxEps := by
      rw [heq, sub_self]; unfold minmaxEps; positivity
    simp only [minmaxList]
    rw [if_neg hl, if_pos hcond]

theorem getD_map_zero (l : List ℚ) (j : ℕ) : (l.map (fun _ => (0:ℚ))).getD j 0 = 0 := by
  induction l generalizing j with
  | nil => simp
  | cons x xs ih => cases j <;> simp [ih]

theorem getD_zipWith (f : ℚ → ℚ → ℚ) (as bs : List ℚ) (j : ℕ)
    (h : j < (List.zipWith f as bs).length) :
    (List.zipWith f as bs).getD j 0 = f (as.getD j 0) (bs.getD j 0) := by
  induction as generalizing bs j with
  | nil => simp at h
  | cons a as ih =>
      cases bs with
      | nil => simp at h
      | cons b bs =>
          cases j with
          | zero => simp
          | succ j => simp only [List.zipWith_cons_cons, List.length_cons] at h ⊢; exact ih bs j (by omega)

theorem getD_map {α β : Type} (l : List α) (f : α → β) (j : ℕ) (d : β) (d0 : α)
    (h : j < l.length) : (l.map f).getD j d = f (l.getD j d0) := by
  induction l generalizing j with
  | nil => simp at h
  | cons x xs ih =>
      cases j with
      | zero => simp
      | succ j => simp only [List.map_cons, List.length_cons] at h ⊢; exact ih j (by omega)

theorem getD_append_length (l : List ℕ) (x : ℕ) (rest : List ℕ) :
    (l ++ x :: rest).getD l.length 0 = x := by
  induction l with
  | nil => simp
  | cons y ys ih => simpa using ih

theorem zip6_length_eq :
    ∀ (as : List ℕ) (bs cs ds es fs : List ℚ) (L : ℕ), as.length = L → bs.length = L →
      cs.length = L → ds.length = L → es.length = L → fs.length = L →
      (zip6 as bs cs ds es fs).length = L
  | [], [], [], [], [], [], L, ha, _, _, _, _, _ => by simp at ha; simp [zip6, ha]
  | a :: as, b :: bs, c :: cs, d :: ds, e :: es, f :: fs, L, ha, hb, hc, hd, he, hf => by
      simp only [List.length_cons] at ha hb hc hd he hf
      cases L with
      | zero => omega
      | succ L =>
          simp only [zip6, List.length_cons]
          rw [zip6_length_eq as bs cs ds es fs L (by omega) (by omega) (by omega) (by omega)
            (by omega) (by omega)]
  | [], b :: bs, _, _, _, _, L, ha, hb, _, _, _, _ => by simp at ha hb; omega
  | [], [], c :: cs, _, _, _, L, ha, _, hc, _, _, _ => by simp at ha hc; omega
  | [], [], [], d :: ds, _, _, L, ha, _, _, hd, _, _ => by simp at ha hd; omega
  | [], [], [], [], e :: es, _, L, ha, _, _, _, he, _ => by simp at ha he; omega
  | [], [], [], [], [], f :: fs, L, ha, _, _, _, _, hf => by simp at ha hf; omega
  | a :: as, [], _, _, _, _, L, ha, hb, _, _, _, _ => by simp at ha hb; omega
  | a :: as, b :: bs, [], _, _, _, L, ha, _, hc, _, _, _ => by simp at ha hc; omega
  | a :: as, b :: bs, c :: cs, [], _, _, L, ha, _, _, hd, _, _ => by simp at ha hd; omega
  | a :: as, b :: bs, c :: cs, d :: ds, [], _, L, ha, _, _, _, he, _ => by simp at ha he; omega
  | a :: as, b :: bs, c :: cs, d :: ds, e :: es, [], L, ha, _, _, _, _, hf => by
      simp at ha hf; omega

theorem mem_zip6 {t : HTuple} :
    ∀ (as : List ℕ) (bs cs ds es fs : List ℚ), t ∈ zip6 as bs cs ds es fs →
      ∃ j, j < as.length ∧ j < bs.length ∧ j < cs.length ∧ j < ds.length ∧ j < es.length ∧
        j < fs.length ∧ t.idx = as.getD j 0 ∧ t.vNorm = bs.getD j 0 ∧ t.bNorm = cs.getD j 0 ∧
        t.fused = ds.getD j 0 ∧ t.tBoost = es.getD j 0 ∧ t.total = fs.getD j 0 := by
  intro as
  induction as with
  | nil => intro bs cs ds es fs h; simp [zip6] at h
  | cons a as ih =>
      intro bs cs ds es fs h
      cases bs with
      | nil => simp [zip6] at h
      | cons b bs =>
      cases cs with
      | nil => simp [zip6] at h
      | cons c cs =>
      cases ds with
      | nil => simp [zip6] at h
      | cons d ds =>
      cases es with
      | nil => simp [zip6] at h
      | cons e es =>
      cases fs with
      | nil => simp [zip6] at h
      | cons f fs =>
          rw [zip6] at h
          rcases List.mem_cons.1 h with h | h
          · exact ⟨0, by simp [h]⟩
          · obtain ⟨j, h1, h2, h3, h4, h5, h6, h7, h8, h9, h10, h11, h12⟩ :=
              ih bs cs ds es fs h
            exact ⟨j + 1, by simpa using h1, by simpa using h2, by simpa using h3,
              by simpa using h4, by simpa using h5, by simpa using h6, by simpa using h7,
              by simpa using h8, by simpa using h9, by simpa using h10, by simpa using h11,
              by simpa using h12⟩

/-! ## MMR argmax scan lemmas -/

theorem pickInv_foldl (sel : List ℕ) (score : ℕ → ℚ) :
    ∀ (l processed : List ℕ) (st : Option ℕ × ℚ), PickInv sel score processed st →
      PickInv sel score (processed ++ l) (l.foldl (pickStep sel score) st) := by
  intro l
  induction l with
  | nil => intro processed st h; simpa using h
  | cons i l ih =>
      intro processed st h
      have hstep : PickInv sel score (processed ++ [i]) (pickStep sel score st i) := by
        unfold pickStep
        by_cases hisel : i ∈ sel
        · rw [if_pos hisel]
          rcases h with ⟨h1, h2, h3⟩ | ⟨b, h1, h2, h3, h4, h5⟩
          · exact Or.inl ⟨h1, h2, by
              intro x hx hxs
              rcases List.mem_append.1 hx with hx | hx
              · exact h3 x hx hxs
              · rcases List.mem_singleton.1 hx with rfl; exact absurd hisel hxs⟩
          · refine Or.inr ⟨b, h1, h2, List.mem_append_left _ h3, h4, ?_⟩
            intro x hx hxs
            rcases List.mem_append.1 hx with hx | hx
            · exact h5 x hx hxs
            · rcases List.mem_singleton.1 hx with rfl; exact absurd hisel hxs
        · rw [if_neg hisel]
          rcases h with ⟨h1, h2, h3⟩ | ⟨b, h1, h2, h3, h4, h5⟩
          · by_cases hlt : st.2 < score i
            · rw [if_pos hlt]
              refine Or.inr ⟨i, rfl, rfl, List.mem_append_right _ (List.mem_singleton.2 rfl),
                hisel, ?_⟩
              intro x hx hxs
              rcases List.mem_append.1 hx with hx | hx
              · exact le_of_lt (lt_of_le_of_lt (h2 ▸ h3 x hx hxs) hlt)
              · rcases List.mem_singleton.1 hx with rfl; exact le_refl _
            · rw [if_neg hlt]
              refine Or.inl ⟨h1, h2, ?_⟩
              intro x hx hxs
              rcases List.mem_append.1 hx with hx | hx
              · exact h3 x hx hxs
              · rcases List.mem_singleton.1 hx with rfl
                rw [h2] at hlt; exact le_of_not_lt hlt
          · by_cases hlt : st.2 < score i
            · rw [if_pos hlt]
              refine Or.inr ⟨i, rfl, rfl, List.mem_append_right _ (List.mem_singleton.2 rfl),
                hisel, ?_⟩
              intro x hx hxs
              rcases List.mem_append.1 hx with hx | hx
              · exact le_of_lt (lt_of_le_of_lt (h5 x hx hxs) (h2 ▸ hlt))
              · rcases List.mem_singleton.1 hx with rfl; exact le_refl _
            · rw [if_neg hlt]
              refine Or.inr ⟨b, h1, h2, List.mem_append_left _ h3, h4, ?_⟩
              intro x hx hxs
              rcases List.mem_append.1 hx with hx | hx
              · exact h5 x hx hxs
              · rcases List.mem_singleton.1 hx with rfl
                rw [h2] at hlt; exact le_of_not_lt hlt
      have := ih (processed ++ [i]) (pickStep sel score st i) hstep
      simpa [List.append_assoc] using this

theorem mmrPick_some (n : ℕ) (sel : List ℕ) (score : ℕ → ℚ) (b : ℕ)
    (h : mmrPick n sel score = some b) :
    b < n ∧ b ∉ sel ∧ ∀ i < n, i ∉ sel → score i ≤ score b := by
  have hinv := pickInv_foldl sel score (List.range n) [] ((none : Option ℕ), mmrNegInf)
    (Or.inl ⟨rfl, rfl, by simp⟩)
  unfold mmrPick at h
  rcases hinv with ⟨h1, _, _⟩ | ⟨b2, h1, h2, h3, h4, h5⟩
  · rw [h1] at h; exact absurd h (by simp)
  · rw [h1] at h
    rcases Option.some_injective _ h with rfl
    refine ⟨by simpa using (List.mem_range.1 (by simpa using h3)), h4, ?_⟩
    intro i hi hisel
    exact h5 i (by simpa using List.mem_range.2 hi) hisel

theorem mmrPick_none (n : ℕ) (sel : List ℕ) (score : ℕ → ℚ)
    (h : mmrPick n sel score = none) :
    ∀ i < n, i ∉ sel → score i ≤ mmrNegInf := by
  have hinv := pickInv_foldl sel score (List.range n) [] ((none : Option ℕ), mmrNegInf)
    (Or.inl ⟨rfl, rfl, by simp⟩)
  unfold mmrPick at h
  rcases hinv with ⟨_, _, h3⟩ | ⟨b2, h1, _, _, _, _⟩
  · intro i hi hisel
    exact h3 i (by simpa using List.mem_range.2 hi) hisel
  · rw [h1] at h; exact absurd h (by simp)

theorem mmrPick_of_exists (n : ℕ) (sel : List ℕ) (score : ℕ → ℚ)
    (h : ∃ i, i < n ∧ i ∉ sel ∧ mmrNegInf < score i) :
    ∃ b, mmrPick n sel score = some b := by
  obtain ⟨i, hi, hisel, hscore⟩ := h
  cases heq : mmrPick n sel score with
  | none => exact absurd (mmrPick_none n sel score heq i hi hisel) (not_le_of_lt hscore)
  | some b => exact ⟨b, rfl⟩

/-! ## MMR outer loop lemmas -/

theorem mmrLoop_extend (n : ℕ) (scoreF : List ℕ → ℕ → ℚ) :
    ∀ (k : ℕ) (sel : List ℕ), ∃ rest, mmrLoop n scoreF k sel = sel ++ rest := by
  intro k
  induction k with
  | zero => intro sel; exact ⟨[], by simp [mmrLoop]⟩
  | succ k ih =>
      intro sel
      cases hp : mmrPick n sel (scoreF sel) with
      | none => exact ⟨[], by simp [mmrLoop, hp]⟩
      | some b =>
          obtain ⟨rest, hrest⟩ := ih (sel ++ [b])
          exact ⟨b :: rest, by simp [mmrLoop, hp, hrest]⟩

theorem mmrLoop_length_le (n : ℕ) (scoreF : List ℕ → ℕ → ℚ) :
    ∀ (k : ℕ) (sel : List ℕ), (mmrLoop n scoreF k sel).length ≤ sel.length + k := by
  intro k
  induction k with
  | zero => intro sel; simp [mmrLoop]
  | succ k ih =>
      intro sel
      cases hp : mmrPick n sel (scoreF sel) with
      | none => simp [mmrLoop, hp]
      | some b =>
          simp only [mmrLoop, hp]
          have := ih (sel ++ [b])
          simp only [List.length_append, List.length_singleton] at this
          omega

theorem exists_unselected (n : ℕ) (sel : List ℕ) (hnd : sel.Nodup)
    (hlt : ∀ x ∈ sel, x < n) (hlen : sel.length < n) : ∃ i, i < n ∧ i ∉ sel := by
  by_contra hcon
  push_neg at hcon
  have hsub : Finset.range n ⊆ sel.toFinset := by
    intro i hi
    exact List.mem_toFinset.2 (hcon i (Finset.mem_range.1 hi))
  have h1 : n ≤ sel.toFinset.card := by
    simpa using Finset.card_le_card hsub
  have h2 : sel.toFinset.card ≤ sel.length := List.toFinset_card_le sel
  omega

theorem mmrLoop_length_exact (n : ℕ) (scoreF : List ℕ → ℕ → ℚ)
    (H : ∀ sel i, (∀ x ∈ sel, x < n) → i < n → mmrNegInf < scoreF sel i) :
    ∀ (k : ℕ) (sel : List ℕ), sel.Nodup → (∀ x ∈ sel, x < n) → sel.length + k ≤ n →
      (mmrLoop n scoreF k sel).length = sel.length + k := by
  intro k
  induction k with
  | zero => intro sel _ _ _; simp [mmrLoop]
  | succ k ih =>
      intro sel hnd hlt hle
      obtain ⟨i, hi, hisel⟩ := exists_unselected n sel hnd hlt (by omega)
      obtain ⟨b, hb⟩ := mmrPick_of_exists n sel (scoreF sel)
        ⟨i, hi, hisel, H sel i hlt hi⟩
      obtain ⟨hbn, hbsel, _⟩ := mmrPick_some n sel (scoreF sel) b hb
      simp only [mmrLoop, hb]
      have hnd2 : (sel ++ [b]).Nodup := by
        simp [List.nodup_append, hnd, hbsel]
      have hlt2 : ∀ x ∈ sel ++ [b], x < n := by
        intro x hx
        rcases List.mem_append.1 hx with hx | hx
        · exact hlt x hx
        · rcases List.mem_singleton.1 hx with rfl; exact hbn
      have hlen2 : (sel ++ [b]).length + k ≤ n := by
        simp only [List.length_append, List.length_singleton]; omega
      have hrec := ih (sel ++ [b]) hnd2 hlt2 hlen2
      simp only [List.length_append, List.length_singleton] at hrec
      omega

theorem take_subset_take {α : Type} (l : List α) (i j : ℕ) (hij : i ≤ j) :
    l.take i ⊆ l.take j := by
  intro x hx
  have heq : l.take i = (l.take j).take i := by
    rw [List.take_take]; congr 1; omega
  rw [heq] at hx
  exact List.take_subset _ _ hx

theorem mmrLoop_greedy (n : ℕ) (scoreF : List ℕ → ℕ → ℚ) :
    ∀ (k : ℕ) (sel : List ℕ) (t : ℕ), sel.length ≤ t →
      ∀ ht : t < (mmrLoop n scoreF k sel).length,
      ((mmrLoop n scoreF k sel).getD t 0 < n ∧
       (mmrLoop n scoreF k sel).getD t 0 ∉ (mmrLoop n scoreF k sel).take t ∧
       ∀ i < n, i ∉ (mmrLoop n scoreF k sel).take t →
         scoreF ((mmrLoop n scoreF k sel).take t) i ≤
           scoreF ((mmrLoop n scoreF k sel).take t) ((mmrLoop n scoreF k sel).getD t 0)) := by
  intro k
  induction k with
  | zero =>
      intro sel t hst ht
      simp only [mmrLoop, List.length_nil] at ht
      omega
  | succ k ih =>
      intro sel t hst ht
      cases hp : mmrPick n sel (scoreF sel) with
      | none =>
          simp only [mmrLoop, hp] at ht ⊢
          omega
      | some b =>
          simp only [mmrLoop, hp] at ht ⊢
          rcases Nat.lt_or_ge t (sel.length + 1) with hceq | hgt
          · have hteq : t = sel.length := by omega
            subst hteq
            obtain ⟨rest, hrest⟩ := mmrLoop_extend n scoreF k (sel ++ [b])
            have hloop : mmrLoop n scoreF k (sel ++ [b]) = sel ++ b :: rest := by
              rw [hrest, List.append_assoc]; rfl
            rw [hloop, getD_append_length, List.take_left]
            obtain ⟨hbn, hbsel, hmax⟩ := mmrPick_some n sel (scoreF sel) b hp
            exact ⟨hbn, hbsel, hmax⟩
          · exact ih (sel ++ [b]) t (by simpa using hgt) ht

theorem mmrScoreF_one (simQ : ℕ → ℚ) (simDD : ℕ → ℕ → ℚ) (sel : List ℕ) (i : ℕ) :
    mmrScoreF simQ simDD 1 sel i = simQ i := by
  unfold mmrScoreF
  ring

theorem listMaxD_abs_le (l : List ℚ) (hl : l ≠ []) (h : ∀ x ∈ l, |x| ≤ 1) :
    |listMaxD l| ≤ 1 := h _ (listMaxD_mem l hl)

theorem mmrScoreF_lower (simQ : ℕ → ℚ) (simDD : ℕ → ℕ → ℚ) (lam : ℚ) (n : ℕ)
    (hq : ∀ i < n, |simQ i| ≤ 1) (hdd : ∀ i j, i < n → j < n → |simDD i j| ≤ 1)
    (h0 : 0 ≤ lam) (h1 : lam ≤ 1) :
    ∀ sel i, (∀ x ∈ sel, x < n) → i < n → mmrNegInf < mmrScoreF simQ simDD lam sel i := by
  intro sel i hsel hi
  unfold mmrScoreF
  have hqi : -1 ≤ simQ i ∧ simQ i ≤ 1 := abs_le.1 (hq i hi)
  have hpen : |(if sel = [] then 0 else listMaxD (sel.map (fun j => simDD i j)))| ≤ 1 := by
    by_cases hsel0 : sel = []
    · simp [hsel0]
    · rw [if_neg hsel0]
      refine listMaxD_abs_le _ (by simpa using hsel0) ?_
      intro x hx
      obtain ⟨j, hj, rfl⟩ := List.mem_map.1 hx
      exact hdd i j hi (hsel j hj)
  have hpen2 := abs_le.1 hpen
  have hterm1 : lam * (-1) ≤ lam * simQ i := by
    exact mul_le_mul_of_nonneg_left hqi.1 h0
  have hterm2 : (1 - lam) * (if sel = [] then 0 else listMaxD (sel.map (fun j => simDD i j)))
      ≤ (1 - lam) * 1 := by
    exact mul_le_mul_of_nonneg_left hpen2.2 (by linarith)
  unfold mmrNegInf
  nlinarith [hterm1, hterm2]

/-! ## Length and membership lemmas for the retriever pipeline -/

theorem argsortDesc_length (xs : List ℚ) : (argsortDesc xs).length = xs.length := by
  unfold argsortDesc
  rw [(List.perm_insertionSort _ _).length_eq, List.length_range]

namespace Retriever

theorem vArr_length (r : Retriever) (q : String) :
    (r.vArr q).length = (r.candUnion q).length := List.length_map _ _

theorem bArr_length (r : Retriever) (q : String) :
    (r.bArr q).length = (r.candUnion q).length := List.length_map _ _

theorem vNorm_length (r : Retriever) (q : String) :
    (r.vNorm q).length = (r.candUnion q).length := by
  unfold vNorm; rw [minmaxList_length, vArr_length]

theorem bNorm_length (r : Retriever) (q : String) :
    (r.bNorm q).length = (r.candUnion q).length := by
  unfold bNorm; rw [minmaxList_length, bArr_length]

theorem fusedArr_length (r : Retriever) (q : String) :
    (r.fusedArr q).length = (r.candUnion q).length := by
  unfold fusedArr; rw [List.length_zipWith, vNorm_length, bNorm_length, min_self]

theorem titleBoosts_length (r : Retriever) (q : String) :
    (r.titleBoosts q).length = (r.candUnion q).length := by
  unfold titleBoosts
  split
  · dsimp only
    split
    · exact List.length_map _ _
    · rw [List.length_map, fusedArr_length]
  · rw [List.length_map, fusedArr_length]

theorem totalArr_length (r : Retriever) (q : String) :
    (r.totalArr q).length = (r.candUnion q).length := by
  unfold totalArr; rw [List.length_zipWith, fusedArr_length, titleBoosts_length, min_self]

theorem rankedPre_length (r : Retriever) (q : String) :
    (r.rankedPre q).length = (r.candUnion q).length :=
  zip6_length_eq _ _ _ _ _ _ _ rfl (r.vNorm_length q) (r.bNorm_length q) (r.fusedArr_length q)
    (r.titleBoosts_length q) (r.totalArr_length q)

theorem hybridRank_length (r : Retriever) (q : String) (hm : r.meta ≠ [])
    (hc : r.candUnion q ≠ []) : (r.hybridRank q).length = (r.candUnion q).length := by
  unfold hybridRank
  rw [if_neg hm, if_neg hc, (List.perm_insertionSort _ _).length_eq, rankedPre_length]

theorem mem_hybridRank (r : Retriever) (q : String) {t : HTuple} (h : t ∈ r.hybridRank q) :
    t ∈ r.rankedPre q := by
  unfold hybridRank at h
  by_cases hm : r.meta = []
  · rw [if_pos hm] at h; simp at h
  · rw [if_neg hm] at h
    by_cases hc : r.candUnion q = []
    · rw [if_pos hc] at h; simp at h
    · rw [if_neg hc] at h
      exact (List.perm_insertionSort _ _).mem_iff.1 h

theorem poolPre_length (r : Retriever) (q : String) :
    (r.poolPre q).length = min (max r.mmr_pool r.rerank_from) (r.hybridRank q).length := by
  unfold poolPre; rw [List.length_map, List.length_take]

theorem rerank_length (r : Retriever) (hg : r.GoodReranker) (q : String) (cands : List ℕ) :
    (r.rerank q cands cands.length).length = cands.length := by
  cases hr : r.reranker with
  | none => simp [rerank, hr]
  | some f =>
      simp only [rerank, hr]
      by_cases hc : cands = []
      · rw [if_pos hc]; simp [hc]
      · rw [if_neg hc]
        cases hfp : f (cands.map (fun i => (q, r.texts.getD i ""))) with
        | error e => simp
        | ok scores =>
            have hsc : scores.length = cands.length := by
              rw [hg f _ scores hr hfp, List.length_map]
            rw [List.length_map, List.length_take, argsortDesc_length, hsc, min_self]

theorem poolPost_length (r : Retriever) (hg : r.GoodReranker) (q : String) :
    (r.poolPost q).length = (r.poolPre q).length := by
  unfold poolPost
  split
  · exact r.rerank_length hg q _
  · rfl

theorem length_search (r : Retriever) (q : String) (t : ℤ) :
    (r.search q (some t)).length =
      if r.hybridRank q = [] then 0
      else (r.mmr (r.encode q) (r.poolPost q) t r.mmr_lambda).length := by
  by_cases hR : r.hybridRank q = [] <;> simp [Retriever.search, hR]

theorem simQ_abs_le (r : Retriever) (hb : r.SimBounded) (q0 : String) (ids : List ℕ) :
    ∀ i < ids.length, |r.simQ (r.encode q0) ids i| ≤ 1 := by
  intro i hi
  unfold simQ candVecs
  rw [getD_map ids _ i [] 0 hi]
  exact hb _ _

theorem simDD_abs_le (r : Retriever) (hb : r.SimBounded) (ids : List ℕ) :
    ∀ i j, i < ids.length → j < ids.length → |r.simDD ids i j| ≤ 1 := by
  intro i j hi hj
  unfold simDD candVecs
  rw [getD_map ids _ i [] 0 hi, getD_map ids _ j [] 0 hj]
  exact hb _ _

theorem mmr_length_le (r : Retriever) (qv : Vec) (ids : List ℕ) (k : ℤ) (lam : ℚ) :
    (r.mmr qv ids k lam).length ≤ (max 1 (min k (ids.length : ℤ))).toNat := by
  unfold mmr
  by_cases hids : ids = []
  · simp [hids]
  · rw [if_neg hids, List.length_map]
    unfold mmrPositions
    have := mmrLoop_length_le ids.length (mmrScoreF (r.simQ qv ids) (r.simDD ids) lam)
      (max 1 (min k (ids.length : ℤ))).toNat []
    simpa using this

theorem mmr_length_exact (r : Retriever) (hb : r.SimBounded) (q0 : String) (ids : List ℕ)
    (k : ℤ) (lam : ℚ) (h0 : 0 ≤ lam) (h1 : lam ≤ 1) (hids : ids ≠ []) :
    (r.mmr (r.encode q0) ids k lam).length = (max 1 (min k (ids.length : ℤ))).toNat := by
  unfold mmr
  rw [if_neg hids, List.length_map]
  unfold mmrPositions
  have H := mmrScoreF_lower (r.simQ (r.encode q0) ids) (r.simDD ids) lam ids.length
    (r.simQ_abs_le hb q0 ids) (r.simDD_abs_le hb ids) h0 h1
  have hn : 1 ≤ ids.length := List.length_pos.2 hids
  have hkk : (max 1 (min k (ids.length : ℤ))).toNat ≤ ids.length := by omega
  have := mmrLoop_length_exact ids.length _ H (max 1 (min k (ids.length : ℤ))).toNat []
    List.nodup_nil (by simp) (by simpa using hkk)
  simpa using this

end Retriever

/-! ## Shared witness facts -/

theorem R0_wellformed : R0.WellFormed := by
  refine ⟨?_, by norm_num [R0], by norm_num [R0], ?_⟩
  · intro s₁ s₂
    show |dot [1] [1]| ≤ 1
    norm_num [dot]
  · intro f ps l h1 _
    exact Option.noConfusion h1

/-- Claim C1 (amended): for `top_k ≥ 1`, `search` returns at most `top_k`
results, and exactly `top_k` whenever the candidate union has at least
`top_k` members and `top_k` does not exceed the working-pool cap
`max(mmr_pool, rerank_from)`. -/
theorem C1_amended_search_length (r : Retriever) (q : String) (t : ℤ) (hw : r.WellFormed)
    (ht : 1 ≤ t) :
    ((r.search q (some t)).length : ℤ) ≤ t ∧
    (r.meta ≠ [] → t ≤ (max r.mmr_pool r.rerank_from : ℕ) →
      t ≤ ((r.candUnion q).length : ℤ) → ((r.search q (some t)).length : ℤ) = t) := by
  obtain ⟨hb, h0, h1, hg⟩ := hw
  constructor
  · rw [Retriever.length_search]
    by_cases hR : r.hybridRank q = []
    · rw [if_pos hR]; omega
    · rw [if_neg hR]
      have := r.mmr_length_le (r.encode q) (r.poolPost q) t r.mmr_lambda
      omega
  · intro hm hcap hu
    have hcne : r.candUnion q ≠ [] := by
      intro h
      rw [h] at hu
      simp at hu
      omega
    have hlenR : (r.hybridRank q).length = (r.candUnion q).length :=
      r.hybridRank_length q hm hcne
    have hR : r.hybridRank q ≠ [] := by
      intro h
      rw [h] at hlenR
      simp at hlenR
      rw [← hlenR] at hu
      simp at hu
      omega
    have hpre := r.poolPre_length q
    have hpost := r.poolPost_length hg q
    have hne : r.poolPost q ≠ [] := by
      apply List.ne_nil_of_length_pos.{0}
      omega
    rw [Retriever.length_search, if_neg hR,
      r.mmr_length_exact hb q _ t r.mmr_lambda h0 h1 hne]
    omega

/-- Claim C1 (counterexample): with `top_k = 0` the search on a two-chunk
corpus returns one result (so the claimed bound `≤ top_k` fails), and with
the pool caps overridden to 1, `top_k = 2` with a two-candidate union
returns a single result (so the claimed equality fails too). -/
theorem C1_cex_search_length :
    ¬ ((R0.search "q" (some 0)).length ≤ 0) ∧
    2 ≤ (Rcap.candUnion "q").length ∧ (Rcap.search "q" (some 2)).length = 1 := by
  with_unfolding_all decide

/-- Witness for the amended claim C1 at a concrete retriever. -/
theorem C1_amended_search_length_witness :
    ((R0.search "q" (some 1)).length : ℤ) ≤ 1 ∧ ((R0.search "q" (some 1)).length : ℤ) = 1 := by
  have h := C1_amended_search_length R0 "q" 1 R0_wellformed (by norm_num)
  refine ⟨h.1, h.2 (by with_unfolding_all decide) (by with_unfolding_all decide)
    (by with_unfolding_all decide)⟩

/-- Claim C10: when the working pool is non-empty, a non-positive `top_k`
still yields exactly one result, because `_mmr` clamps the selection count
to `max(1, min(k, pool_size))`. -/
theorem C10_nonpositive_topk (r : Retriever) (q : String) (t : ℤ) (hw : r.WellFormed)
    (ht : t ≤ 0) (hR : r.hybridRank q ≠ []) (hcap : 0 < max r.mmr_pool r.rerank_from) :
    (r.search q (some t)).length = 1 := by
  obtain ⟨hb, h0, h1, hg⟩ := hw
  rw [Retriever.length_search, if_neg hR]
  have hpre := r.poolPre_length q
  have hRlen : 0 < (r.hybridRank q).length := List.length_pos.2 hR
  have hpost := r.poolPost_length hg q
  have hne : r.poolPost q ≠ [] := by
    apply List.ne_nil_of_length_pos.{0}
    omega
  rw [r.mmr_length_exact hb q _ t r.mmr_lambda h0 h1 hne]
  have hn : 1 ≤ (r.poolPost q).length := by omega
  omega

/-- Witness for claim C10 at a concrete retriever. -/
theorem C10_nonpositive_topk_witness : (R0.search "q" (some 0)).length = 1 :=
  C10_nonpositive_topk R0 "q" 0 R0_wellformed (le_refl 0)
    (by with_unfolding_all decide) (by with_unfolding_all decide)

theorem getD_eq_get {α : Type} (l : List α) (d : α) (t : ℕ) (ht : t < l.length) :
    l.getD t d = l.get ⟨t, ht⟩ := by
  induction l generalizing t with
  | nil => simp at ht
  | cons x xs ih =>
      cases t with
      | zero => rfl
      | succ t => simpa using ih t (by simpa using ht)

/-- Claim C2: the MMR selector is the greedy algorithm of the spec.  The
score of a candidate against an empty selected set is `λ · sim(query, i)`
(zero diversity penalty); every element of the selected sequence maximizes
the MMR score against the previously selected ones, over the unselected
pool positions; and with `λ = 1` the selected sequence is sorted by
descending query-candidate cosine similarity. -/
theorem C2_mmr_greedy (r : Retriever) (qv : Vec) (ids : List ℕ) (k : ℤ) (lam : ℚ) :
    (∀ i : ℕ, mmrScoreF (r.simQ qv ids) (r.simDD ids) lam [] i = lam * r.simQ qv ids i) ∧
    (∀ t : ℕ, t < (r.mmrPositions qv ids k lam).length →
      ((r.mmrPositions qv ids k lam).getD t 0 < ids.length ∧
       (r.mmrPositions qv ids k lam).getD t 0 ∉ (r.mmrPositions qv ids k lam).take t ∧
       ∀ i < ids.length, i ∉ (r.mmrPositions qv ids k lam).take t →
         mmrScoreF (r.simQ qv ids) (r.simDD ids) lam ((r.mmrPositions qv ids k lam).take t) i ≤
           mmrScoreF (r.simQ qv ids) (r.simDD ids) lam
             ((r.mmrPositions qv ids k lam).take t)
             ((r.mmrPositions qv ids k lam).getD t 0))) ∧
    ((r.mmrPositions qv ids k 1).map (r.simQ qv ids)).Sorted (fun a b => b ≤ a) := by
  refine ⟨?_, ?_, ?_⟩
  · intro i
    simp [mmrScoreF]
  · intro t ht
    exact mmrLoop_greedy ids.length _ _ [] t (by simp) ht
  · rw [List.Sorted, List.pairwise_map, List.pairwise_iff_get]
    intro i j hij
    have hti : (i : ℕ) < (r.mmrPositions qv ids k 1).length := i.isLt
    have htj : (j : ℕ) < (r.mmrPositions qv ids k 1).length := j.isLt
    have gi := mmrLoop_greedy ids.length
      (mmrScoreF (r.simQ qv ids) (r.simDD ids) 1) _ [] (i : ℕ) (by simp) hti
    have gj := mmrLoop_greedy ids.length
      (mmrScoreF (r.simQ qv ids) (r.simDD ids) 1) _ [] (j : ℕ) (by simp) htj
    have hjn := gj.1
    have hjtake : (r.mmrPositions qv ids k 1).getD (j : ℕ) 0 ∉
        (r.mmrPositions qv ids k 1).take (i : ℕ) := by
      intro hmem
      exact gj.2.1 (take_subset_take _ _ _ (le_of_lt hij) hmem)
    have hmax := gi.2.2 ((r.mmrPositions qv ids k 1).getD (j : ℕ) 0) hjn hjtake
    rw [mmrScoreF_one, mmrScoreF_one] at hmax
    rw [← getD_eq_get _ 0 _ hti, ← getD_eq_get _ 0 _ htj]
    exact hmax

/-- Witness for claim C2 at a concrete retriever and pool. -/
theorem C2_mmr_greedy_witness :
    mmrScoreF (R0.simQ [1] [0, 1]) (R0.simDD [0, 1]) (3/5) [] 0 =
      (3/5) * R0.simQ [1] [0, 1] 0 ∧
    ((R0.mmrPositions [1] [0, 1] 2 1).map (R0.simQ [1] [0, 1])).Sorted (fun a b => b ≤ a) :=
  ⟨(C2_mmr_greedy R0 [1] [0, 1] 2 (3/5)).1 0, (C2_mmr_greedy R0 [1] [0, 1] 2 1).2.2⟩

/-- Claim C3: if all raw lexical scores over the candidate union coincide
(in particular when no BM25 scorer exists and all of them are `0.0`), the
normalized lexical axis is identically zero and every fused score is
exactly `alpha` times the normalized dense score. -/
theorem C3_flat_lexical_axis (r : Retriever) (q : String) :
    (r.bm25 = none → ∀ x ∈ r.bArr q, x = 0) ∧
    ((∀ x ∈ r.bArr q, ∀ y ∈ r.bArr q, x = y) →
      (∀ x ∈ r.bNorm q, x = 0) ∧
      ∀ tup ∈ r.hybridRank q, tup.bNorm = 0 ∧ tup.fused = r.alpha_hybrid * tup.vNorm) := by
  constructor
  · intro hb x hx
    obtain ⟨i, _, rfl⟩ := List.mem_map.1 hx
    simp [lookupD, Retriever.bm25Pairs, Retriever.bm25Top, Retriever.bmScores, hb, argsortDesc]
  · intro hconst
    have hbNorm : r.bNorm q = (r.bArr q).map (fun _ => 0) := minmaxList_const _ hconst
    constructor
    · intro x hx
      rw [hbNorm] at hx
      obtain ⟨_, _, rfl⟩ := List.mem_map.1 hx
      rfl
    · intro tup htup
      obtain ⟨j, hj1, hj2, hj3, hj4, hj5, hj6, e1, e2, e3, e4, e5, e6⟩ :=
        mem_zip6 _ _ _ _ _ _ (r.mem_hybridRank q htup)
      have hb0 : tup.bNorm = 0 := by
        rw [e3, hbNorm, getD_map_zero]
      refine ⟨hb0, ?_⟩
      have hfl : j < (r.fusedArr q).length := hj4
      rw [e4]
      unfold Retriever.fusedArr
      rw [getD_zipWith _ _ _ j (by exact hfl)]
      rw [← e2]
      have : (r.bNorm q).getD j 0 = 0 := by rw [hbNorm, getD_map_zero]
      rw [this]
      ring

/-- Witness for claim C3: on a retriever without a BM25 scorer, the top
result's normalized lexical score is zero and its fused score is exactly
`alpha` times its normalized dense score. -/
theorem getD_zero_mem {α : Type} (l : List α) (d : α) (h : l ≠ []) : l.getD 0 d ∈ l := by
  cases l with
  | nil => exact absurd rfl h
  | cons x xs => simp

theorem C3_flat_lexical_axis_witness :
    HTuple.bNorm ((R0.hybridRank "q").getD 0 ⟨0, 0, 0, 0, 0, 0⟩) = 0 ∧
    HTuple.fused ((R0.hybridRank "q").getD 0 ⟨0, 0, 0, 0, 0, 0⟩) =
      R0.alpha_hybrid * HTuple.vNorm ((R0.hybridRank "q").getD 0 ⟨0, 0, 0, 0, 0, 0⟩) := by
  have h := (C3_flat_lexical_axis R0 "q").2 (by with_unfolding_all decide)
  have hmem : (R0.hybridRank "q").getD 0 ⟨0, 0, 0, 0, 0, 0⟩ ∈ R0.hybridRank "q" :=
    getD_zero_mem _ _ (by with_unfolding_all decide)
  exact h.2 _ hmem

/-- When title boosting is disabled, every hybrid-rank row has a zero title
boost and its total score equals its fused score. -/
theorem title_off (r : Retriever) (q : String) (h : r.use_titles = false) :
    ∀ tup ∈ r.hybridRank q, tup.tBoost = 0 ∧ tup.total = tup.fused := by
  have hboost : r.titleBoosts q = (r.fusedArr q).map (fun _ => 0) := by
    unfold Retriever.titleBoosts
    rw [if_neg]
    intro hcon
    rw [h] at hcon
    exact Bool.false_ne_true hcon.1
  intro tup htup
  obtain ⟨j, hj1, hj2, hj3, hj4, hj5, hj6, e1, e2, e3, e4, e5, e6⟩ :=
    mem_zip6 _ _ _ _ _ _ (r.mem_hybridRank q htup)
  have ht0 : tup.tBoost = 0 := by rw [e5, hboost, getD_map_zero]
  refine ⟨ht0, ?_⟩
  rw [e6]
  unfold Retriever.totalArr
  rw [getD_zipWith _ _ _ j (by exact hj6)]
  have : (r.titleBoosts q).getD j 0 = 0 := by rw [hboost, getD_map_zero]
  rw [this, ← e4, add_zero]

/-- Claim C6: a title table whose row count disagrees with the number of
distinct titles leaves construction successful, disables `use_titles`, and
makes every hybrid-rank row carry a zero title boost (total = fused). -/
theorem C6_title_shape_mismatch (a : InitArgs) (vs : List Vec)
    (hidx : a.indexPresent = true) (hmeta : a.metaPresent = true)
    (henv : a.useTitlesEnv = true) (hpres : a.titlesPresent = true)
    (hload : a.titlesLoad = some vs) (hlen : vs.length ≠ (distinctTitles a.meta).length) :
    retrieverInit a = .ok (initRetriever a) ∧
    (initRetriever a).use_titles = false ∧
    ∀ q : String, ∀ tup ∈ (initRetriever a).hybridRank q,
      tup.tBoost = 0 ∧ tup.total = tup.fused := by
  have hut : (initUseTitles a).1 = false := by
    unfold initUseTitles
    rw [if_pos ⟨henv, hpres⟩, hload]
    simp [hlen]
  have hfalse : (initRetriever a).use_titles = false := hut
  refine ⟨?_, hfalse, ?_⟩
  · unfold retrieverInit
    rw [if_neg]
    rw [hidx, hmeta]
    simp
  · intro q tup htup
    exact title_off _ q hfalse tup htup

/-- Witness for claim C6 at concrete construction inputs with a mismatched
title table. -/
theorem C6_title_shape_mismatch_witness :
    Except.map Retriever.use_titles (retrieverInit A6) = .ok false ∧
    HTuple.tBoost (((initRetriever A6).hybridRank "q").getD 0 ⟨0, 0, 0, 0, 0, 0⟩) = 0 := by
  have h := C6_title_shape_mismatch A6 [[1], [1], [1]] rfl rfl rfl rfl rfl
    (by with_unfolding_all decide)
  constructor
  · rw [h.1]
    show Except.ok ((initRetriever A6).use_titles) = Except.ok false
    rw [h.2.1]
  · refine (h.2.2 "q" _ (getD_zero_mem _ _ ?_)).1
    with_unfolding_all decide

/-- Claim C7: construction with a missing index or metadata file fails with
the typed construction error (the spec's `MissingIndexError`; the source
raises `FileNotFoundError("Missing KB files ...")`). -/
theorem C7_missing_index (a : InitArgs)
    (h : a.indexPresent = false ∨ a.metaPresent = false) :
    retrieverInit a = .error (.missingIndex "Missing KB files") := by
  unfold retrieverInit
  rw [if_pos h]

/-- Witness for claim C7: construction inputs with the metadata file
absent. -/
theorem C7_missing_index_witness :
    retrieverInit A7 = .error (.missingIndex "Missing KB files") :=
  C7_missing_index A7 (Or.inr rfl)

/-- Claim C8: search on an empty corpus returns the empty list, and search
also returns the empty list when both the dense and the sparse candidate
sets are empty. -/
theorem C8_empty_results (r : Retriever) (q : String) (topK : Option ℤ) :
    (r.meta = [] → r.search q topK = []) ∧
    (r.denseHits q = [] → r.bm25Top q = [] → r.search q topK = []) := by
  constructor
  · intro hm
    have hr : r.hybridRank q = [] := by
      unfold Retriever.hybridRank
      rw [if_pos hm]
    simp [Retriever.search, hr]
  · intro hd hb
    have hc : r.candUnion q = [] := by
      unfold Retriever.candUnion
      rw [hd, hb]
      rfl
    have hr : r.hybridRank q = [] := by
      unfold Retriever.hybridRank
      by_cases hm : r.meta = []
      · rw [if_pos hm]
      · rw [if_neg hm, if_pos hc]
    simp [Retriever.search, hr]

/-- Witness for claim C8 on a concrete empty-corpus retriever. -/
theorem C8_empty_results_witness : Rempty.search "q" none = [] :=
  (C8_empty_results Rempty "q" none).1 rfl

/-- Claim C5: when the reranker raises on every predict call, the rerank
stage is a pass-through (the post-rerank pool equals the pre-rerank pool)
and search returns exactly what it returns with no reranker configured. -/
theorem C5_failing_reranker (r : Retriever) (q : String) (topK : Option ℤ)
    (f : List (String × String) → Except Unit (List ℚ)) (hf : r.reranker = some f)
    (hfail : ∀ ps, f ps = .error ()) :
    r.poolPost q = r.poolPre q ∧
    r.search q topK = Retriever.search { r with reranker := none } q topK := by
  have hpp : r.poolPost q = r.poolPre q := by
    unfold Retriever.poolPost
    by_cases hpre : r.poolPre q = []
    · rw [if_neg]
      intro hcon
      exact hcon.2 hpre
    · rw [if_pos ⟨by rw [hf]; rfl, hpre⟩]
      unfold Retriever.rerank
      rw [hf]
      simp only []
      rw [if_neg hpre, hfail _]
      exact List.take_length _
  refine ⟨hpp, ?_⟩
  have h2 : Retriever.poolPost { r with reranker := none } q = r.poolPre q := by
    unfold Retriever.poolPost
    rw [if_neg]
    · rfl
    · intro hcon
      exact Bool.false_ne_true hcon.1
  by_cases hR : r.hybridRank q = []
  · have hR2 : Retriever.hybridRank { r with reranker := none } q = [] := hR
    simp [Retriever.search, hR, hR2]
  · have hR2 : ¬ Retriever.hybridRank { r with reranker := none } q = [] := hR
    simp only [Retriever.search]
    rw [if_neg hR, if_neg hR2]
    have hpool : Retriever.poolPost { r with reranker := none } q = r.poolPost q := by
      rw [h2, hpp]
    rw [hpool]
    rfl

/-- Witness for claim C5 at a concrete retriever with an always-raising
reranker. -/
theorem C5_failing_reranker_witness :
    Rfail.poolPost "q" = Rfail.poolPre "q" ∧
    Rfail.search "q" (some 1) = Retriever.search { Rfail with reranker := none } "q" (some 1) :=
  C5_failing_reranker Rfail "q" (some 1) failPredict rfl (fun _ => rfl)

/-! ## Scaling lemmas for claim C4 -/

theorem mul_min_nonneg (c x y : ℚ) (hc : 0 ≤ c) : c * min x y = min (c * x) (c * y) := by
  rcases le_total x y with h | h
  · rw [min_eq_left h, min_eq_left (mul_le_mul_of_nonneg_left h hc)]
  · rw [min_eq_right h, min_eq_right (mul_le_mul_of_nonneg_left h hc)]

theorem mul_max_nonneg (c x y : ℚ) (hc : 0 ≤ c) : c * max x y = max (c * x) (c * y) := by
  rcases le_total x y with h | h
  · rw [max_eq_right h, max_eq_right (mul_le_mul_of_nonneg_left h hc)]
  · rw [max_eq_left h, max_eq_left (mul_le_mul_of_nonneg_left h hc)]

theorem listMinD_scale (l : List ℚ) (c : ℚ) (hc : 0 ≤ c) :
    listMinD (l.map (fun y => c * y)) = c * listMinD l := by
  cases l with
  | nil => simp [listMinD]
  | cons x xs =>
      show (xs.map (fun y => c * y)).foldl min (c * x) = c * xs.foldl min x
      induction xs generalizing x with
      | nil => simp
      | cons y ys ih =>
          simp only [List.map_cons, List.foldl_cons]
          rw [← mul_min_nonneg c x y hc]
          exact ih (min x y)

theorem listMaxD_scale (l : List ℚ) (c : ℚ) (hc : 0 ≤ c) :
    listMaxD (l.map (fun y => c * y)) = c * listMaxD l := by
  cases l with
  | nil => simp [listMaxD]
  | cons x xs =>
      show (xs.map (fun y => c * y)).foldl max (c * x) = c * xs.foldl max x
      induction xs generalizing x with
      | nil => simp
      | cons y ys ih =>
          simp only [List.map_cons, List.foldl_cons]
          rw [← mul_max_nonneg c x y hc]
          exact ih (max x y)

theorem minmaxList_scale (l : List ℚ) (c : ℚ) (hc : 0 < c)
    (h1 : minmaxEps ≤ listMaxD l - listMinD l)
    (h2 : minmaxEps ≤ c * (listMaxD l - listMinD l)) :
    minmaxList (l.map (fun y => c * y)) =
      (minmaxList l).map (fun y =>
        (c * (listMaxD l - listMinD l + minmaxEps) /
          (c * (listMaxD l - listMinD l) + minmaxEps)) * y) := by
  have heps : (0 : ℚ) < minmaxEps := by unfold minmaxEps; positivity
  have hl : l ≠ [] := by
    intro h
    rw [h] at h1
    simp [listMaxD, listMinD] at h1
    linarith
  have hml : l.map (fun y => c * y) ≠ [] := by simpa using hl
  unfold minmaxList
  rw [if_neg hl, if_neg hml]
  rw [listMinD_scale l c (le_of_lt hc), listMaxD_scale l c (le_of_lt hc)]
  rw [if_neg (by rw [← mul_sub]; exact not_lt.2 h2), if_neg (not_lt.2 h1)]
  rw [List.map_map, List.map_map]
  apply List.map_congr_left
  intro x _
  have hd1 : c * (listMaxD l - listMinD l) + minmaxEps ≠ 0 := by nlinarith
  have hd2 : listMaxD l - listMinD l + minmaxEps ≠ 0 := by nlinarith
  show (c * x - c * listMinD l) / (c * listMaxD l - c * listMinD l + minmaxEps) =
    (c * (listMaxD l - listMinD l + minmaxEps) /
      (c * (listMaxD l - listMinD l) + minmaxEps)) * ((x - listMinD l) / (listMaxD l - listMinD l + minmaxEps))
  rw [show c * listMaxD l - c * listMinD l + minmaxEps =
    c * (listMaxD l - listMinD l) + minmaxEps by ring]
  field_simp
  ring

theorem getD_map_mul (l : List ℚ) (t : ℚ) (i : ℕ) :
    (l.map (fun y => t * y)).getD i 0 = t * l.getD i 0 := by
  induction l generalizing i with
  | nil => simp
  | cons x xs ih =>
      cases i with
      | zero => simp
      | succ n =>
          simp only [List.map_cons, List.getD_cons_succ]
          exact ih n

theorem lookupD_scale (ps : List (ℕ × ℚ)) (c : ℚ) (i : ℕ) :
    lookupD (ps.map (fun p => (p.1, c * p.2))) i = c * lookupD ps i := by
  induction ps with
  | nil => simp [lookupD]
  | cons p ps ih =>
      obtain ⟨a, b⟩ := p
      cases hcmp : (i == a) with
      | true => simp [lookupD, List.lookup, hcmp]
      | false =>
          simp only [List.map_cons, lookupD, List.lookup, hcmp]
          simpa [lookupD] using ih

theorem scaleDense_candUnion (r : Retriever) (q : String) (c : ℚ) :
    (scaleDense r c).candUnion q = r.candUnion q := by
  unfold Retriever.candUnion
  have hd : (scaleDense r c).denseHits q =
      (r.denseHits q).map (fun p => (p.1, c * p.2)) := rfl
  have hb : (scaleDense r c).bm25Top q = r.bm25Top q := rfl
  rw [hd, hb, List.map_map]
  have : (Prod.fst ∘ fun p : ℕ × ℚ => (p.1, c * p.2)) = Prod.fst := by
    funext p
    rfl
  rw [this]

theorem scaleDense_vArr (r : Retriever) (q : String) (c : ℚ) :
    (scaleDense r c).vArr q = (r.vArr q).map (fun y => c * y) := by
  unfold Retriever.vArr
  rw [scaleDense_candUnion, List.map_map]
  apply List.map_congr_left
  intro i _
  show lookupD ((scaleDense r c).denseHits q) i = c * lookupD (r.denseHits q) i
  have hd : (scaleDense r c).denseHits q =
      (r.denseHits q).map (fun p => (p.1, c * p.2)) := rfl
  rw [hd, lookupD_scale]

/-- Claim C4 (amended): multiplying all raw dense scores by `c > 0` leaves
the candidate union unchanged and multiplies every normalized dense score
by one common positive factor, provided the dense score range stays above
the `1e-12` threshold before and after scaling; hence the ordering of
candidates by normalized dense score is unchanged.  (The fused ranking
itself is not invariant: see the counterexample.) -/
theorem C4_amended_dense_scale (r : Retriever) (q : String) (c : ℚ) (hc : 0 < c)
    (h1 : minmaxEps ≤ listMaxD (r.vArr q) - listMinD (r.vArr q))
    (h2 : minmaxEps ≤ c * (listMaxD (r.vArr q) - listMinD (r.vArr q))) :
    (scaleDense r c).candUnion q = r.candUnion q ∧
    ∃ t : ℚ, 0 < t ∧ (scaleDense r c).vNorm q = (r.vNorm q).map (fun y => t * y) ∧
      ∀ i j : ℕ,
        (((scaleDense r c).vNorm q).getD i 0 ≤ ((scaleDense r c).vNorm q).getD j 0 ↔
          (r.vNorm q).getD i 0 ≤ (r.vNorm q).getD j 0) := by
  have heps : (0 : ℚ) < minmaxEps := by unfold minmaxEps; positivity
  refine ⟨scaleDense_candUnion r q c, ?_⟩
  set t : ℚ := c * (listMaxD (r.vArr q) - listMinD (r.vArr q) + minmaxEps) /
    (c * (listMaxD (r.vArr q) - listMinD (r.vArr q)) + minmaxEps) with hts
  have hden : 0 < c * (listMaxD (r.vArr q) - listMinD (r.vArr q)) + minmaxEps := by nlinarith
  have hnum : 0 < c * (listMaxD (r.vArr q) - listMinD (r.vArr q) + minmaxEps) := by nlinarith
  have htpos : 0 < t := div_pos hnum hden
  have hvn : (scaleDense r c).vNorm q = (r.vNorm q).map (fun y => t * y) := by
    unfold Retriever.vNorm
    rw [scaleDense_vArr, minmaxList_scale _ c hc h1 h2]
  refine ⟨t, htpos, hvn, ?_⟩
  intro i j
  rw [hvn, getD_map_mul, getD_map_mul]
  exact mul_le_mul_left htpos

/-- Claim C4 (counterexample): scaling all raw dense scores by the positive
constant `1/10^13` collapses the dense range below the `1e-12` guard, so
the normalized dense axis becomes all zeros and the fused ranking flips. -/
theorem C4_cex_dense_scale :
    (0 : ℚ) < 1/10^13 ∧
    (R4.hybridRank "q").map HTuple.idx = [1, 0] ∧
    ((scaleDense R4 (1/10^13)).hybridRank "q").map HTuple.idx = [0, 1] := by
  with_unfolding_all decide

/-- Witness for the amended claim C4 at a concrete retriever and scale. -/
theorem C4_amended_dense_scale_witness :
    (scaleDense R4 2).candUnion "q" = R4.candUnion "q" ∧
    (((scaleDense R4 2).vNorm "q").getD 0 0 ≤ ((scaleDense R4 2).vNorm "q").getD 1 0 ↔
      (R4.vNorm "q").getD 0 0 ≤ (R4.vNorm "q").getD 1 0) := by
  have h := C4_amended_dense_scale R4 "q" 2 (by norm_num) (by with_unfolding_all decide)
    (by with_unfolding_all decide)
  obtain ⟨hcu, t, _, _, hiff⟩ := h
  exact ⟨hcu, hiff 0 1⟩

/-! ## Tokenizer lemmas for claim C9 -/

theorem mk_reverse_token (acc : List Char) (h : acc ≠ [])
    (hacc : ∀ ch ∈ acc, ch.isWhitespace = false) :
    String.mk acc.reverse ≠ "" ∧ ∀ ch ∈ (String.mk acc.reverse).data, ch.isWhitespace = false := by
  constructor
  · intro hcon
    have hdata : acc.reverse = ([] : List Char) := congrArg String.data hcon
    rw [List.reverse_eq_nil_iff] at hdata
    exact h hdata
  · intro ch hch
    have : ch ∈ acc := by
      have : ch ∈ acc.reverse := hch
      simpa using this
    exact hacc ch this

theorem wsSplitAux_tokens :
    ∀ (cs acc : List Char), (∀ ch ∈ acc, ch.isWhitespace = false) →
      ∀ tok ∈ wsSplitAux cs acc, tok ≠ "" ∧ ∀ ch ∈ tok.data, ch.isWhitespace = false := by
  intro cs
  induction cs with
  | nil =>
      intro acc hacc tok htok
      unfold wsSplitAux at htok
      by_cases h : acc = []
      · rw [if_pos h] at htok
        simp at htok
      · rw [if_neg h] at htok
        rcases List.mem_singleton.1 htok with rfl
        exact mk_reverse_token acc h hacc
  | cons c cs ih =>
      intro acc hacc tok htok
      unfold wsSplitAux at htok
      by_cases hw : c.isWhitespace
      · rw [if_pos hw] at htok
        by_cases h : acc = []
        · rw [if_pos h] at htok
          exact ih [] (by simp) tok htok
        · rw [if_neg h] at htok
          rcases List.mem_cons.1 htok with rfl | htok
          · exact mk_reverse_token acc h hacc
          · exact ih [] (by simp) tok htok
      · rw [if_neg hw] at htok
        refine ih (c :: acc) ?_ tok htok
        intro ch hch
        rcases List.mem_cons.1 hch with rfl | hch
        · simpa using hw
        · exact hacc ch hch

/-- Claim C9 (amended): the sparse path scores the corpus with the query
lower-cased and split on whitespace runs (Python `query.lower().split()`),
with no stopword removal; every produced token is non-empty and
whitespace-free. -/
theorem C9_amended_tokenization (r : Retriever) (f : List String → List ℚ)
    (hf : r.bm25 = some f) (q : String) :
    r.bmScores q = f (wsSplit q.toLower.data) ∧
    ∀ tok ∈ tokenizeLowerSplit q, tok ≠ "" ∧ ∀ ch ∈ tok.data, ch.isWhitespace = false := by
  constructor
  · unfold Retriever.bmScores
    rw [hf]
    rfl
  · intro tok htok
    exact wsSplitAux_tokens q.toLower.data [] (by simp) tok htok


/-- Claim C9 (counterexample): the source's tokenizer keeps punctuation
attached to whitespace-separated words, so it differs from the spec's
"extract alphanumeric tokens" on the query "a, b", and the sparse scorer
receives the punctuated tokens. -/
theorem C9_cex_tokenization :
    tokenizeLowerSplit "a, b" = ["a,", "b"] ∧ alnumTokens "a, b" = ["a", "b"] ∧
    Rtok.bmScores "a, b" = [0] ∧ fTok (alnumTokens "a, b") = [1] := by
  with_unfolding_all decide

/-- Witness for the amended claim C9 at a concrete scorer and query. -/
theorem C9_amended_tokenization_witness :
    Rtok.bmScores "a, b" = fTok (wsSplit ("a, b" : String).toLower.data) :=
  (C9_amended_tokenization Rtok fTok rfl "a, b").1
